import Mathlib

/-!
Verification of the RATCHET web demo (web_demo.py).

The file embeds the sampling transforms (top_k_logits, top_p_logits,
temperature scaling), the autoregressive decode loop (evaluate), the
validator gate and the attention renderer loop bound, over real-valued
logits.  The transformer model, the tokenizer and the seeded categorical
sampler of TensorFlow are external capabilities and appear as function
parameters.  Machine floats are idealised as real numbers.
-/

namespace Ratchet

/-- The large negative sentinel written -1e10 in the source, used to mask
a logit so that it has (essentially) zero probability after softmax. -/
noncomputable def maskValue : ℝ := -1e10

/-- Descending sort of a logit vector, embedding tf.sort with direction
DESCENDING (web_demo.py line 77) and the value order of tf.nn.top_k. -/
noncomputable def sortedDesc (l : List ℝ) : List ℝ :=
  l.insertionSort (fun a b => b ≤ a)

/-- Embedding of tf.nn.softmax along the last axis. -/
noncomputable def softmax (l : List ℝ) : List ℝ :=
  l.map (fun x => Real.exp x / (l.map Real.exp).sum)

/-- Embedding of tf.cumsum: position i holds the sum of the first i+1
entries. -/
noncomputable def cumsum (s : List ℝ) : List ℝ :=
  (List.range s.length).map (fun i => (s.take (i + 1)).sum)

/-- The cumulative softmax probabilities of the descending-sorted logits,
cumulative_probs of web_demo.py line 78. -/
noncomputable def cumulativeProbs (l : List ℝ) : List ℝ :=
  cumsum (softmax (sortedDesc l))

/-- The number of cumulative probabilities that are at most p, the
tf.reduce_sum of the cast of cumulative_probs <= p (line 82). -/
noncomputable def nucleusCount (l : List ℝ) (p : ℝ) : ℕ :=
  (cumulativeProbs l).countP (fun c => decide (c ≤ p))

/-- The cutoff position used to read the minimal retained score, the
tf.maximum(... - 1, 0) of web_demo.py line 82.  Natural subtraction
models the clamp to zero. -/
noncomputable def nucleusCutoffIndex (l : List ℝ) (p : ℝ) : ℕ :=
  max (nucleusCount l p - 1) 0

/-- Embedding of top_k_logits (web_demo.py lines 54-71).  k = 0 returns
the logits unchanged.  Otherwise the boundary score is the k-th largest
value (tf.nn.top_k values[:, -1]); every logit strictly below it is
replaced by the sentinel.  tf.nn.top_k faults when k exceeds the vector
length, modelled by none. -/
noncomputable def top_k_logits (l : List ℝ) (k : ℕ) : Option (List ℝ) :=
  if k = 0 then some l
  else
    match (sortedDesc l)[k - 1]? with
    | none => none
    | some m => some (l.map (fun x => if x < m then maskValue else x))

/-- Embedding of top_p_logits (web_demo.py lines 74-89).  The boundary
score is the descending-sorted logit at the cutoff index; every logit
strictly below it is replaced by the sentinel.  tf.gather_nd faults on an
empty logit vector, modelled by none. -/
noncomputable def top_p_logits (l : List ℝ) (p : ℝ) : Option (List ℝ) :=
  match (sortedDesc l)[nucleusCutoffIndex l p]? with
  | none => none
  | some m => some (l.map (fun x => if x < m then maskValue else x))

/-- Division of the last-position logits by the temperature
(web_demo.py line 110).  The source performs the division with no guard
on the divisor. -/
noncomputable def scaleByTemperature (l : List ℝ) (t : ℝ) : List ℝ :=
  l.map (fun x => x / t)

/-- The temperatures the sidebar slider can supply (web_demo.py line
146): min_value 0.0, max_value 1.0, step 0.01. -/
def temperatureSliderValues : Set ℝ :=
  { t | ∃ m : ℕ, m ≤ 100 ∧ t = (m : ℝ) / 100 }

/-- Embedding of tf.nn.sigmoid, applied to the raw validator output
(web_demo.py line 168). -/
noncomputable def sigmoid (x : ℝ) : ℝ :=
  1 / (1 + Real.exp (-x))

/-- The validator gate of web_demo.py lines 168-171: generation is
skipped (none) exactly when the sigmoid probability is strictly below
0.1; otherwise the generated report is produced. -/
noncomputable def validatorGate {α : Type} (valid : ℝ) (report : α) : Option α :=
  if valid < 0.1 then none else some report

/-- The stop token id checked at web_demo.py line 122. -/
def stopTokenId : ℤ := 2

/-- The default maximum number of decode steps, MAX_LENGTH of
web_demo.py line 92. -/
def MAX_LENGTH : ℕ := 128

/-- The decode loop of evaluate (web_demo.py lines 98-132).  fuel is the
number of loop iterations left, i the Python loop variable of the next
iteration, output the current token sequence (it starts as the singleton
start token), and lastAttn the attention weights of the most recent
completed iteration (none before the first).  model maps the current
output sequence to the last-position logits and the attention weights;
choose maps the step index and those logits to the selected token id
(the temperature scaling, the filters and the argmax or categorical draw
live inside it).  When the selected id equals the stop token the
function returns at once with output[1:], the current attention and i.
When the fuel runs out it returns output[1:], the last attention and the
final loop variable, which is one less than the number of iterations.
A run with zero iterations is a fault in the source (the loop variable
and the attention weights are never bound), modelled by none. -/
def evalGo {α : Type} (model : List ℤ → List ℝ × α) (choose : ℕ → List ℝ → ℤ) :
    ℕ → ℕ → List ℤ → Option α → Option (List ℤ × α × ℕ)
  | 0, i, output, lastAttn =>
    match lastAttn with
    | none => none
    | some a => some (output.drop 1, a, i - 1)
  | fuel + 1, i, output, _ =>
    let pa := model output
    let pid := choose i pa.1
    if pid = stopTokenId then some (output.drop 1, pa.2, i)
    else evalGo model choose fuel (i + 1) (output ++ [pid]) (some pa.2)

/-- Embedding of evaluate (web_demo.py lines 92-132): run the decode
loop from the singleton start-token sequence. -/
def evaluate {α : Type} (model : List ℤ → List ℝ × α) (choose : ℕ → List ℝ → ℤ)
    (startId : ℤ) (maxLength : ℕ) : Option (List ℤ × α × ℕ) :=
  evalGo model choose maxLength 0 [startId] none

/-- The ids appended by the decode loop after the state (i, output): one
id per iteration until the stop token is selected or the fuel runs out;
a selected stop token is not appended. -/
def genIds {α : Type} (model : List ℤ → List ℝ × α) (choose : ℕ → List ℝ → ℤ) :
    ℕ → ℕ → List ℤ → List ℤ
  | 0, _, _ => []
  | fuel + 1, i, output =>
    let pid := choose i (model output).1
    if pid = stopTokenId then []
    else pid :: genIds model choose fuel (i + 1) (output ++ [pid])

/-- The number of loop iterations the decode loop executes from the
state (i, output): each iteration invokes the model once. -/
def execCountGo {α : Type} (model : List ℤ → List ℝ × α) (choose : ℕ → List ℝ → ℤ) :
    ℕ → ℕ → List ℤ → ℕ
  | 0, _, _ => 0
  | fuel + 1, i, output =>
    let pid := choose i (model output).1
    if pid = stopTokenId then 1
    else 1 + execCountGo model choose fuel (i + 1) (output ++ [pid])

/-- The number of decoding steps evaluate executes. -/
def execCount {α : Type} (model : List ℤ → List ℝ × α) (choose : ℕ → List ℝ → ℤ)
    (startId : ℤ) (maxLength : ℕ) : ℕ :=
  execCountGo model choose maxLength 0 [startId]

/-- The sampling configuration supplied once per generation request by
the sidebar. -/
structure SamplingConfig where
  temperature : ℝ
  topK : ℕ
  topP : ℝ
  seed : ℤ

/-- The per-step token chooser of Sampling mode (web_demo.py lines
110-117): divide the last-position logits by the temperature, apply
top_k_logits then top_p_logits, and draw one id with the seeded
categorical sampler.  categorical stands for tf.random.categorical,
a deterministic function of the seed, the step index and the filtered
logits.  The none branches are faults of the TensorFlow filters
(k larger than the vocabulary, empty logits), unreachable for the
configurations the sidebar can supply. -/
noncomputable def samplingChoose {γ : Type} [Inhabited γ]
    (categorical : ℤ → ℕ → List ℝ → γ) (cfg : SamplingConfig)
    (i : ℕ) (preds : List ℝ) : γ :=
  match top_k_logits (scaleByTemperature preds cfg.temperature) cfg.topK with
  | none => default
  | some l1 =>
    match top_p_logits l1 cfg.topP with
    | none => default
    | some l2 => categorical cfg.seed i l2

/-- The number of attention overlays the renderer draws (web_demo.py
lines 197-201): the loop runs over range(tokens - 1), one subplot per
iteration, where tokens is the third component returned by evaluate. -/
def renderedOverlayCount (tokens : ℕ) : ℕ := tokens - 1

/-- Modelled from the spec: the prefix length its top-p sentence
demands, the smallest number of descending-order candidates whose
cumulative softmax probability reaches at least p.  Because the
cumulative probabilities increase strictly, this is one more than the
number of them strictly below p. -/
noncomputable def specNucleusCount (l : List ℝ) (p : ℝ) : ℕ :=
  1 + (cumulativeProbs l).countP (fun c => decide (c < p))

theorem sortedDesc_perm (l : List ℝ) : List.Perm (sortedDesc l) l :=
  List.perm_insertionSort _ l

theorem sortedDesc_sorted (l : List ℝ) : (sortedDesc l).Sorted (fun a b => b ≤ a) :=
  List.sorted_insertionSort _ l

theorem sortedDesc_length (l : List ℝ) : (sortedDesc l).length = l.length :=
  (sortedDesc_perm l).length_eq

theorem sortedDesc_getElem_le (l : List ℝ) {i j : ℕ} (hij : i ≤ j)
    (hj : j < (sortedDesc l).length) :
    have hi : i < (sortedDesc l).length := lt_of_le_of_lt hij hj
    (sortedDesc l)[j] ≤ (sortedDesc l)[i] := by
  rcases Nat.eq_or_lt_of_le hij with rfl | hlt
  · exact le_refl _
  · exact (List.pairwise_iff_getElem.1 (sortedDesc_sorted l)) i j _ hj hlt

theorem takeSum_le_takeSum {s : List ℝ} (hpos : ∀ x ∈ s, 0 ≤ x) {i j : ℕ} (hij : i ≤ j) :
    (s.take i).sum ≤ (s.take j).sum := by
  have hsplit : s.take j = (s.take j).take i ++ (s.take j).drop i :=
    (List.take_append_drop i (s.take j)).symm
  have htt : (s.take j).take i = s.take i := by
    rw [List.take_take, min_eq_left hij]
  have hnn : 0 ≤ ((s.take j).drop i).sum := by
    refine List.sum_nonneg (fun x hx => hpos x ?_)
    exact List.mem_of_mem_take (List.mem_of_mem_drop hx)
  calc (s.take i).sum = (s.take i).sum + 0 := by ring
    _ ≤ (s.take i).sum + ((s.take j).drop i).sum := by linarith
    _ = ((s.take j).take i ++ (s.take j).drop i).sum := by rw [htt, List.sum_append]
    _ = (s.take j).sum := by rw [← hsplit]

theorem takeSum_lt_takeSum_succ {s : List ℝ} (hpos : ∀ x ∈ s, 0 < x) {i : ℕ}
    (h : i < s.length) :
    (s.take i).sum < (s.take (i + 1)).sum := by
  have : s.take (i + 1) = s.take i ++ [s[i]] := by
    rw [List.take_succ]
    simp [List.getElem?_eq_getElem h]
  rw [this, List.sum_append]
  have := hpos (s[i]) (List.getElem_mem h)
  simp only [List.sum_cons, List.sum_nil]
  linarith

theorem cumsum_length (s : List ℝ) : (cumsum s).length = s.length := by
  simp [cumsum]

theorem cumsum_getElem (s : List ℝ) {i : ℕ} (h : i < (cumsum s).length) :
    (cumsum s)[i] = (s.take (i + 1)).sum := by
  simp [cumsum]

theorem cumsum_sorted {s : List ℝ} (hpos : ∀ x ∈ s, 0 ≤ x) :
    (cumsum s).Sorted (fun a b => a ≤ b) := by
  refine List.pairwise_iff_getElem.2 (fun i j hi hj hij => ?_)
  rw [cumsum_getElem s hi, cumsum_getElem s hj]
  exact takeSum_le_takeSum hpos (Nat.succ_le_succ (Nat.le_of_lt hij))

theorem sorted_countP_le_iff {s : List ℝ} (hs : s.Sorted (fun a b => a ≤ b)) (p : ℝ) :
    ∀ i (hi : i < s.length),
      (i < s.countP (fun c => decide (c ≤ p)) ↔ s[i] ≤ p) := by
  induction s with
  | nil => intro i hi; simp at hi
  | cons a t ih =>
    intro i hi
    have hat := (List.sorted_cons.1 hs)
    by_cases hap : a ≤ p
    · have hcount : (a :: t).countP (fun c => decide (c ≤ p)) =
          t.countP (fun c => decide (c ≤ p)) + 1 := by
        rw [List.countP_cons]
        simp [hap]
      cases i with
      | zero => simpa [hcount] using hap
      | succ i =>
        have hit : i < t.length := Nat.lt_of_succ_lt_succ hi
        rw [hcount, List.getElem_cons_succ, ← ih hat.2 i hit]
        omega

    · have hzero : (a :: t).countP (fun c => decide (c ≤ p)) = 0 := by
        rw [List.countP_eq_zero]
        intro x hx
        rcases List.mem_cons.1 hx with rfl | hxt
        · simpa using hap
        · have : a ≤ x := hat.1 x hxt
          have : ¬ x ≤ p := fun hxp => hap (le_trans this hxp)
          simpa using this
      rw [hzero]
      cases i with
      | zero => simpa using hap
      | succ i =>
        have hit : i < t.length := Nat.lt_of_succ_lt_succ hi
        have hax : a ≤ t[i] := hat.1 _ (List.getElem_mem hit)
        have : ¬ t[i] ≤ p := fun hxp => hap (le_trans hax hxp)
        simp only [List.getElem_cons_succ]
        constructor
        · intro h; omega
        · intro h; exact absurd h this

theorem countP_ge_of_boundary (l : List ℝ) (j : ℕ) (hj : j < (sortedDesc l).length) :
    j + 1 ≤ l.countP (fun x => decide ((sortedDesc l)[j] ≤ x)) := by
  set s := sortedDesc l with hs
  set m := s[j] with hm
  rw [← (sortedDesc_perm l).countP_eq]
  have hsplit : s = s.take (j + 1) ++ s.drop (j + 1) := (List.take_append_drop _ s).symm
  have hlen : (s.take (j + 1)).length = j + 1 := by
    rw [List.length_take]
    omega
  have hall : ∀ x ∈ s.take (j + 1), (fun x => decide (m ≤ x)) x = true := by
    intro x hx
    rcases List.mem_iff_getElem.1 hx with ⟨i, hilt, rfl⟩
    have hij : i ≤ j := by
      have := hilt
      rw [hlen] at this
      omega
    simp only [List.getElem_take]
    exact decide_eq_true (sortedDesc_getElem_le l hij hj)
  have htake : (s.take (j + 1)).countP (fun x => decide (m ≤ x)) = j + 1 := by
    rw [List.countP_eq_length.2 hall, hlen]
  calc j + 1 = (s.take (j + 1)).countP (fun x => decide (m ≤ x)) := htake.symm
    _ ≤ (s.take (j + 1)).countP (fun x => decide (m ≤ x)) +
        (s.drop (j + 1)).countP (fun x => decide (m ≤ x)) := Nat.le_add_right _ _
    _ = s.countP (fun x => decide (m ≤ x)) := by
        rw [← List.countP_append, ← hsplit]

theorem countP_eq_of_boundary_nodup (l : List ℝ) (j : ℕ) (hj : j < (sortedDesc l).length)
    (hn : l.Nodup) : l.countP (fun x => decide ((sortedDesc l)[j] ≤ x)) = j + 1 := by
  set s := sortedDesc l with hs
  set m := s[j] with hm
  have hns : s.Nodup := ((sortedDesc_perm l).nodup_iff).2 hn
  rw [← (sortedDesc_perm l).countP_eq]
  have hsplit : s = s.take (j + 1) ++ s.drop (j + 1) := (List.take_append_drop _ s).symm
  have hlen : (s.take (j + 1)).length = j + 1 := by
    rw [List.length_take]
    omega
  have hall : ∀ x ∈ s.take (j + 1), (fun x => decide (m ≤ x)) x = true := by
    intro x hx
    rcases List.mem_iff_getElem.1 hx with ⟨i, hilt, rfl⟩
    have hij : i ≤ j := by
      have := hilt
      rw [hlen] at this
      omega
    simp only [List.getElem_take]
    exact decide_eq_true (sortedDesc_getElem_le l hij hj)
  have htake : (s.take (j + 1)).countP (fun x => decide (m ≤ x)) = j + 1 := by
    rw [List.countP_eq_length.2 hall, hlen]
  have hdrop : (s.drop (j + 1)).countP (fun x => decide (m ≤ x)) = 0 := by
    rw [List.countP_eq_zero]
    intro x hx
    rcases List.mem_iff_getElem.1 hx with ⟨i, hilt, rfl⟩
    simp only [List.getElem_drop]
    have hlt : j < j + 1 + i := by omega
    have hjile : j + 1 + i < s.length := by
      have := hilt
      rw [List.length_drop] at this
      omega
    have hle : s[j + 1 + i] ≤ m :=
      (List.pairwise_iff_getElem.1 (sortedDesc_sorted l)) j (j + 1 + i) hj hjile hlt
    have hne : s[j + 1 + i] ≠ m := by
      intro he
      have := (hns.getElem_inj_iff).1 he
      omega
    have : ¬ m ≤ s[j + 1 + i] := fun hge => hne (le_antisymm hle hge)
    simpa using this
  calc s.countP (fun x => decide (m ≤ x))
      = (s.take (j + 1)).countP (fun x => decide (m ≤ x)) +
        (s.drop (j + 1)).countP (fun x => decide (m ≤ x)) := by
        rw [← List.countP_append, ← hsplit]
    _ = j + 1 := by rw [htake, hdrop]

theorem sum_map_div (l : List ℝ) (f : ℝ → ℝ) (S : ℝ) :
    (l.map (fun x => f x / S)).sum = (l.map f).sum / S := by
  induction l with
  | nil => simp
  | cons a t ih => simp [ih, add_div]

theorem mapExpSum_pos {l : List ℝ} (hl : l ≠ []) : 0 < (l.map Real.exp).sum := by
  cases l with
  | nil => exact absurd rfl hl
  | cons a t =>
    have h1 : (0 : ℝ) < Real.exp a := Real.exp_pos a
    have h2 : 0 ≤ (t.map Real.exp).sum := by
      refine List.sum_nonneg (fun x hx => ?_)
      rcases List.mem_map.1 hx with ⟨y, _, rfl⟩
      exact (Real.exp_pos y).le
    simp only [List.map_cons, List.sum_cons]
    linarith

theorem softmax_pos {l : List ℝ} (hl : l ≠ []) : ∀ x ∈ softmax l, 0 < x := by
  intro x hx
  rcases List.mem_map.1 hx with ⟨y, _, rfl⟩
  exact div_pos (Real.exp_pos y) (mapExpSum_pos hl)

theorem softmax_length (l : List ℝ) : (softmax l).length = l.length := by
  simp [softmax]

theorem softmax_sum {l : List ℝ} (hl : l ≠ []) : (softmax l).sum = 1 := by
  unfold softmax
  rw [sum_map_div l Real.exp]
  exact div_self (ne_of_gt (mapExpSum_pos hl))

theorem sortedDesc_ne_nil {l : List ℝ} (hl : l ≠ []) : sortedDesc l ≠ [] := by
  intro h
  have := sortedDesc_length l
  rw [h] at this
  exact hl (List.eq_nil_of_length_eq_zero this.symm)

theorem cumulativeProbs_length (l : List ℝ) : (cumulativeProbs l).length = l.length := by
  rw [cumulativeProbs, cumsum_length, softmax_length, sortedDesc_length]

theorem cumulativeProbs_getElem {l : List ℝ} {i : ℕ} (h : i < (cumulativeProbs l).length) :
    (cumulativeProbs l)[i] = ((softmax (sortedDesc l)).take (i + 1)).sum :=
  cumsum_getElem _ h

theorem cumulativeProbs_sorted {l : List ℝ} (hl : l ≠ []) :
    (cumulativeProbs l).Sorted (fun a b => a ≤ b) :=
  cumsum_sorted (fun x hx => (softmax_pos (sortedDesc_ne_nil hl) x hx).le)

theorem cumulativeProbs_le_one {l : List ℝ} (hl : l ≠ []) {i : ℕ}
    (h : i < (cumulativeProbs l).length) : (cumulativeProbs l)[i] ≤ 1 := by
  rw [cumulativeProbs_getElem h]
  set s := softmax (sortedDesc l) with hsdef
  have hnn : ∀ x ∈ s, 0 ≤ x :=
    fun x hx => (softmax_pos (sortedDesc_ne_nil hl) x hx).le
  have : (s.take (i + 1)).sum ≤ (s.take s.length).sum :=
    takeSum_le_takeSum hnn (by
      have := h
      rw [cumulativeProbs_length] at this
      rw [hsdef, softmax_length, sortedDesc_length]
      omega)
  calc (s.take (i + 1)).sum ≤ (s.take s.length).sum := this
    _ = s.sum := by rw [List.take_length]
    _ = 1 := softmax_sum (sortedDesc_ne_nil hl)

theorem nucleusCount_le (l : List ℝ) (p : ℝ) : nucleusCount l p ≤ l.length := by
  calc nucleusCount l p ≤ (cumulativeProbs l).length := List.countP_le_length _
    _ = l.length := cumulativeProbs_length l

theorem nucleusCutoffIndex_lt {l : List ℝ} (hl : l ≠ []) (p : ℝ) :
    nucleusCutoffIndex l p < (sortedDesc l).length := by
  have h1 := nucleusCount_le l p
  have h2 : l.length ≠ 0 := fun h => hl (List.eq_nil_of_length_eq_zero h)
  rw [sortedDesc_length, nucleusCutoffIndex]
  omega

theorem nucleusCount_iff {l : List ℝ} (hl : l ≠ []) (p : ℝ) {i : ℕ} (hi : i < l.length) :
    (i < nucleusCount l p ↔ ((softmax (sortedDesc l)).take (i + 1)).sum ≤ p) := by
  have hi' : i < (cumulativeProbs l).length := by rw [cumulativeProbs_length]; exact hi
  have := sorted_countP_le_iff (cumulativeProbs_sorted hl) p i hi'
  rw [cumulativeProbs_getElem hi'] at this
  exact this

theorem nucleusCount_eq_length_of_one_le {l : List ℝ} (hl : l ≠ []) {p : ℝ} (hp : 1 ≤ p) :
    nucleusCount l p = l.length := by
  rw [← cumulativeProbs_length l]
  refine List.countP_eq_length.2 (fun a ha => ?_)
  rcases List.mem_iff_getElem.1 ha with ⟨i, hilt, rfl⟩
  exact decide_eq_true (le_trans (cumulativeProbs_le_one hl hilt) hp)

/-- C6: the validator gate rejects the upload (no generation) exactly when
the sigmoid probability of the validator output is strictly below 0.1,
and a probability of exactly 0.1 is treated as valid, so generation
proceeds. -/
theorem validator_gate_strict_threshold {α : Type} (raw : ℝ) (report : α) :
    (validatorGate (sigmoid raw) report = none ↔ sigmoid raw < 0.1) ∧
    validatorGate (0.1 : ℝ) report = some report := by
  constructor
  · unfold validatorGate
    by_cases h : sigmoid raw < 0.1
    · simp [h]
    · simp [h]
  · unfold validatorGate
    have : ¬ (0.1 : ℝ) < 0.1 := lt_irrefl _
    simp [this]

/-- C7 counterexample: the interface can supply temperature 0 (the slider
minimum), so temperature is not constrained to be strictly positive. -/
theorem temperature_unguarded_cex :
    (0 : ℝ) ∈ temperatureSliderValues ∧
    ¬ (∀ t ∈ temperatureSliderValues, 0 < t) := by
  have h0 : (0 : ℝ) ∈ temperatureSliderValues := ⟨0, by norm_num⟩
  exact ⟨h0, fun h => lt_irrefl 0 (h 0 h0)⟩

/-- C7 amended: the decoder does not guard temperature against zero.  The
slider admits temperature 0 as its minimum, and evaluate divides the
last-position logits by the temperature unconditionally, so a zero
divisor is suppliable; only the nonzero slider values are strictly
positive. -/
theorem temperature_unguarded :
    (0 : ℝ) ∈ temperatureSliderValues ∧
    (∀ l : List ℝ, scaleByTemperature l 0 = l.map (fun x => x / 0)) ∧
    (∀ t ∈ temperatureSliderValues, t ≠ 0 → 0 < t) := by
  refine ⟨⟨0, by norm_num⟩, fun l => rfl, ?_⟩
  rintro t ⟨m, _, rfl⟩ hne
  have hm : m ≠ 0 := by
    intro h
    exact hne (by simp [h])
  have : (0 : ℝ) < (m : ℝ) := by
    have : 0 < m := Nat.pos_of_ne_zero hm
    exact_mod_cast this
  positivity

/-- C7 amended witness: the smallest positive slider value is positive. -/
theorem temperature_unguarded_witness : (0 : ℝ) < (1 : ℕ) / 100 :=
  temperature_unguarded.2.2 ((1 : ℕ) / 100) ⟨1, by norm_num, rfl⟩ (by norm_num)

/-- C8: Sampling mode is reproducible.  With the seeded categorical
sampler a deterministic function of seed, step and filtered logits, two
evaluate runs with the same model (image and weights), the same sampling
configuration (temperature, top_k, top_p, seed), the same start token and
the same step cap return the same result, in particular the same output
token sequence. -/
theorem evaluate_sampling_reproducible {α : Type}
    (categorical : ℤ → ℕ → List ℝ → ℤ)
    (model₁ model₂ : List ℤ → List ℝ × α) (cfg₁ cfg₂ : SamplingConfig)
    (start₁ start₂ : ℤ) (n₁ n₂ : ℕ)
    (hm : model₁ = model₂) (hc : cfg₁ = cfg₂) (hs : start₁ = start₂) (hn : n₁ = n₂) :
    evaluate model₁ (samplingChoose categorical cfg₁) start₁ n₁ =
    evaluate model₂ (samplingChoose categorical cfg₂) start₂ n₂ := by
  subst hm
  subst hc
  subst hs
  subst hn
  rfl

/-- C8 witness: a concrete reproducibility instance with a toy model and
configuration. -/
theorem evaluate_sampling_reproducible_witness :
    evaluate (fun _ => ([(0 : ℝ)], ())) (samplingChoose (fun _ _ _ => (3 : ℤ))
      (SamplingConfig.mk 1 0 1 42)) 0 1 =
    evaluate (fun _ => ([(0 : ℝ)], ())) (samplingChoose (fun _ _ _ => (3 : ℤ))
      (SamplingConfig.mk 1 0 1 42)) 0 1 :=
  evaluate_sampling_reproducible (fun _ _ _ => (3 : ℤ)) _ _ _ _ _ _ _ _
    rfl rfl rfl rfl

theorem execCountGo_le {α : Type} (model : List ℤ → List ℝ × α)
    (choose : ℕ → List ℝ → ℤ) :
    ∀ (fuel i : ℕ) (output : List ℤ), execCountGo model choose fuel i output ≤ fuel := by
  intro fuel
  induction fuel with
  | zero => intro i output; simp [execCountGo]
  | succ fuel ih =>
    intro i output
    by_cases h : choose i (model output).1 = stopTokenId
    · simp [execCountGo, h]
    · simp only [execCountGo, h, if_false]
      have := ih (i + 1) (output ++ [choose i (model output).1])
      omega

theorem execCountGo_pos {α : Type} (model : List ℤ → List ℝ × α)
    (choose : ℕ → List ℝ → ℤ) (fuel i : ℕ) (output : List ℤ) :
    1 ≤ execCountGo model choose (fuel + 1) i output := by
  by_cases h : choose i (model output).1 = stopTokenId
  · simp [execCountGo, h]
  · simp only [execCountGo, h, if_false]
    omega

theorem evalGo_some {α : Type} (model : List ℤ → List ℝ × α)
    (choose : ℕ → List ℝ → ℤ) :
    ∀ (fuel i : ℕ) (output : List ℤ) (a : α),
      ∃ r, evalGo model choose fuel i output (some a) = some r := by
  intro fuel
  induction fuel with
  | zero => intro i output a; exact ⟨(output.drop 1, a, i - 1), rfl⟩
  | succ fuel ih =>
    intro i output a
    by_cases h : choose i (model output).1 = stopTokenId
    · exact ⟨(output.drop 1, (model output).2, i), by simp [evalGo, h]⟩
    · rcases ih (i + 1) (output ++ [choose i (model output).1]) (model output).2 with ⟨r, hr⟩
      exact ⟨r, by simpa [evalGo, h] using hr⟩

theorem evalGo_third {α : Type} (model : List ℤ → List ℝ × α)
    (choose : ℕ → List ℝ → ℤ) :
    ∀ (fuel i : ℕ) (output : List ℤ) (a : α) (r : List ℤ × α × ℕ), 1 ≤ i →
      evalGo model choose fuel i output (some a) = some r →
      r.2.2 + 1 = i + execCountGo model choose fuel i output := by
  intro fuel
  induction fuel with
  | zero =>
    intro i output a r hi h
    simp only [evalGo] at h
    cases h
    simp only [execCountGo]
    omega
  | succ fuel ih =>
    intro i output a r hi h
    by_cases hs : choose i (model output).1 = stopTokenId
    · simp only [evalGo, hs, if_pos] at h
      cases h
      simp [execCountGo, hs]
    · simp only [evalGo, hs, if_false] at h
      have := ih (i + 1) (output ++ [choose i (model output).1]) (model output).2 r
        (by omega) h
      simp only [execCountGo, hs, if_false]
      omega

theorem evalGo_fst {α : Type} (model : List ℤ → List ℝ × α)
    (choose : ℕ → List ℝ → ℤ) :
    ∀ (fuel i : ℕ) (output : List ℤ) (a : α) (r : List ℤ × α × ℕ), output ≠ [] →
      evalGo model choose fuel i output (some a) = some r →
      r.1 = output.drop 1 ++ genIds model choose fuel i output := by
  intro fuel
  induction fuel with
  | zero =>
    intro i output a r _ h
    simp only [evalGo] at h
    cases h
    simp [genIds]
  | succ fuel ih =>
    intro i output a r hne h
    by_cases hs : choose i (model output).1 = stopTokenId
    · simp only [evalGo, hs, if_pos] at h
      cases h
      simp [genIds, hs]
    · simp only [evalGo, hs, if_false] at h
      have := ih (i + 1) (output ++ [choose i (model output).1]) (model output).2 r
        (by simp) h
      rw [this]
      have hdrop : (output ++ [choose i (model output).1]).drop 1 =
          output.drop 1 ++ [choose i (model output).1] := by
        rw [List.drop_append_of_le_length]
        exact Nat.one_le_iff_ne_zero.2 (fun h0 => hne (List.eq_nil_of_length_eq_zero h0))
      rw [hdrop]
      simp [genIds, hs]

theorem genIds_ne_stop {α : Type} (model : List ℤ → List ℝ × α)
    (choose : ℕ → List ℝ → ℤ) :
    ∀ (fuel i : ℕ) (output : List ℤ) (x : ℤ),
      x ∈ genIds model choose fuel i output → x ≠ stopTokenId := by
  intro fuel
  induction fuel with
  | zero => intro i output x hx; simp [genIds] at hx
  | succ fuel ih =>
    intro i output x hx
    by_cases hs : choose i (model output).1 = stopTokenId
    · simp [genIds, hs] at hx
    · simp only [genIds, hs, if_false, List.mem_cons] at hx
      rcases hx with rfl | hx
      · exact hs
      · exact ih _ _ x hx

theorem evalGo_len {α : Type} (model : List ℤ → List ℝ × α)
    (choose : ℕ → List ℝ → ℤ) :
    ∀ (fuel i : ℕ) (output : List ℤ) (a : α) (r : List ℤ × α × ℕ),
      1 ≤ i → output.length = i + 1 →
      evalGo model choose fuel i output (some a) = some r →
      r.1.length = r.2.2 ∨ r.1.length = r.2.2 + 1 := by
  intro fuel
  induction fuel with
  | zero =>
    intro i output a r hi hlen h
    simp only [evalGo] at h
    cases h
    right
    simp only [List.length_drop, hlen]
    omega
  | succ fuel ih =>
    intro i output a r hi hlen h
    by_cases hs : choose i (model output).1 = stopTokenId
    · simp only [evalGo, hs, if_pos] at h
      cases h
      left
      simp only [List.length_drop, hlen]
      omega
    · simp only [evalGo, hs, if_false] at h
      exact ih (i + 1) (output ++ [choose i (model output).1]) (model output).2 r
        (by omega) (by simp [hlen]) h

/-- C3: evaluate terminates.  For any model, chooser, start token and any
positive step cap n it returns a result, it executes at most n decoding
steps, and whenever the selected token id equals the stop token id the
loop returns at once, with the sequence and attention of that very
iteration and the current loop counter. -/
theorem evaluate_terminates_within_max {α : Type} (model : List ℤ → List ℝ × α)
    (choose : ℕ → List ℝ → ℤ) (start : ℤ) (n : ℕ) (hn : 1 ≤ n) :
    (∃ r, evaluate model choose start n = some r) ∧
    execCount model choose start n ≤ n ∧
    (∀ (fuel i : ℕ) (output : List ℤ) (a : Option α),
      choose i (model output).1 = stopTokenId →
      evalGo model choose (fuel + 1) i output a =
        some (output.drop 1, (model output).2, i)) := by
  refine ⟨?_, execCountGo_le model choose n 0 [start], ?_⟩
  · obtain ⟨n', rfl⟩ : ∃ n', n = n' + 1 := ⟨n - 1, by omega⟩
    by_cases hs : choose 0 (model [start]).1 = stopTokenId
    · exact ⟨([start].drop 1, (model [start]).2, 0), by simp [evaluate, evalGo, hs]⟩
    · rcases evalGo_some model choose n' 1 ([start] ++ [choose 0 (model [start]).1])
        (model [start]).2 with ⟨r, hr⟩
      exact ⟨r, by simpa [evaluate, evalGo, hs] using hr⟩
  · intro fuel i output a hs
    simp [evalGo, hs]

/-- C3 witness: with a toy model that never selects the stop token and the
default cap MAX_LENGTH, evaluate returns, executes at most MAX_LENGTH
steps, and the loop-level early-return property holds. -/
theorem evaluate_terminates_within_max_witness :
    (∃ r, evaluate (fun _ => ([(0 : ℝ)], ())) (fun _ _ => (5 : ℤ)) 0 MAX_LENGTH = some r) ∧
    execCount (fun _ => ([(0 : ℝ)], ())) (fun _ _ => (5 : ℤ)) 0 MAX_LENGTH ≤ MAX_LENGTH ∧
    (∀ (fuel i : ℕ) (output : List ℤ) (a : Option Unit),
      (fun _ _ => (5 : ℤ)) i ((fun _ => ([(0 : ℝ)], ())) output).1 = stopTokenId →
      evalGo (fun _ => ([(0 : ℝ)], ())) (fun _ _ => (5 : ℤ)) (fuel + 1) i output a =
        some (output.drop 1, ((fun _ => ([(0 : ℝ)], ())) output).2, i)) :=
  evaluate_terminates_within_max (fun _ => ([(0 : ℝ)], ())) (fun _ _ => (5 : ℤ)) 0
    MAX_LENGTH (by norm_num [MAX_LENGTH])

/-- C4: the sequence returned by evaluate is exactly the list of selected
non-stop ids: the leading start token is stripped from the front, a
selected stop token is never appended (so the stop id does not occur in
the returned sequence), and with step cap 1 and a non-stop selection at
step 0 the returned sequence has length exactly 1. -/
theorem evaluate_output_excludes_markers {α : Type} (model : List ℤ → List ℝ × α)
    (choose : ℕ → List ℝ → ℤ) (start : ℤ) (n : ℕ) (r : List ℤ × α × ℕ)
    (h : evaluate model choose start n = some r) :
    r.1 = genIds model choose n 0 [start] ∧
    (∀ x ∈ r.1, x ≠ stopTokenId) ∧
    (n = 1 → choose 0 (model [start]).1 ≠ stopTokenId → r.1.length = 1) := by
  have hfst : r.1 = genIds model choose n 0 [start] := by
    cases n with
    | zero => simp [evaluate, evalGo] at h
    | succ n' =>
      by_cases hs : choose 0 (model [start]).1 = stopTokenId
      · simp only [evaluate, evalGo, hs, if_pos] at h
        cases h
        simp [genIds, hs]
      · simp only [evaluate, evalGo, hs, if_false] at h
        have := evalGo_fst model choose n' 1 ([start] ++ [choose 0 (model [start]).1])
          (model [start]).2 r (by simp) h
        rw [this]
        simp [genIds, hs]
  refine ⟨hfst, ?_, ?_⟩
  · intro x hx
    rw [hfst] at hx
    exact genIds_ne_stop model choose n 0 [start] x hx
  · rintro rfl hs
    rw [hfst]
    simp [genIds, hs]

/-- C4 witness: a concrete run with cap 1 and a non-stop selection whose
returned sequence is the one selected id. -/
theorem evaluate_output_excludes_markers_witness :
    ([(5 : ℤ)], (), 0).1 = genIds (fun _ => ([(0 : ℝ)], ())) (fun _ _ => (5 : ℤ)) 1 0 [0] ∧
    (∀ x ∈ ([(5 : ℤ)], (), 0).1, x ≠ stopTokenId) ∧
    (1 = 1 → (fun _ _ => (5 : ℤ)) 0 ((fun _ => ([(0 : ℝ)], ())) [(0 : ℤ)]).1 ≠ stopTokenId →
      ([(5 : ℤ)], (), 0).1.length = 1) :=
  evaluate_output_excludes_markers (fun _ => ([(0 : ℝ)], ())) (fun _ _ => (5 : ℤ))
    0 1 ([(5 : ℤ)], (), 0) rfl

/-- C5 counterexample: with step cap 1 and a chooser that never selects
the stop token, evaluate executes one decoding step but its third
component is 0, so the third component is not the number of executed
steps. -/
theorem evaluate_step_counter_cex :
    evaluate (fun _ => ([(0 : ℝ)], ())) (fun _ _ => (5 : ℤ)) 0 1 = some ([5], (), 0) ∧
    execCount (fun _ => ([(0 : ℝ)], ())) (fun _ _ => (5 : ℤ)) 0 1 = 1 ∧
    (0 : ℕ) ≠ 1 :=
  ⟨rfl, rfl, by decide⟩

/-- C5 amended: the third component of the triple returned by evaluate is
one less than the number of decoding steps executed (it is the 0-based
Python loop variable of the final executed step), both on early stop-token
termination and when the step cap is reached. -/
theorem evaluate_step_counter_off_by_one {α : Type} (model : List ℤ → List ℝ × α)
    (choose : ℕ → List ℝ → ℤ) (start : ℤ) (n : ℕ) (r : List ℤ × α × ℕ)
    (hn : 1 ≤ n) (h : evaluate model choose start n = some r) :
    r.2.2 + 1 = execCount model choose start n := by
  obtain ⟨n', rfl⟩ : ∃ n', n = n' + 1 := ⟨n - 1, by omega⟩
  by_cases hs : choose 0 (model [start]).1 = stopTokenId
  · simp only [evaluate, evalGo, hs, if_pos] at h
    cases h
    simp [execCount, execCountGo, hs]
  · simp only [evaluate, evalGo, hs, if_false] at h
    have := evalGo_third model choose n' 1 ([start] ++ [choose 0 (model [start]).1])
      (model [start]).2 r (by omega) h
    simp only [execCount, execCountGo, hs, if_false, Nat.zero_add]
    omega

/-- C5 amended witness: in the counterexample run the third component 0 is
one less than the single executed step. -/
theorem evaluate_step_counter_off_by_one_witness :
    (([(5 : ℤ)], (), 0) : List ℤ × Unit × ℕ).2.2 + 1 =
      execCount (fun _ => ([(0 : ℝ)], ())) (fun _ _ => (5 : ℤ)) 0 1 :=
  evaluate_step_counter_off_by_one (fun _ => ([(0 : ℝ)], ())) (fun _ _ => (5 : ℤ))
    0 1 ([(5 : ℤ)], (), 0) (by norm_num) rfl

/-- C9 counterexample: a run that selects one non-stop token and then the
stop token returns the sequence [5] of length 1 with third component 1,
and the renderer draws range(1 - 1) = 0 overlay sub-plots, not 1. -/
theorem renderer_overlay_count_cex :
    evaluate (fun _ => ([(0 : ℝ)], ())) (fun i _ => if i = 0 then (5 : ℤ) else 2) 0
      MAX_LENGTH = some ([5], (), 1) ∧
    renderedOverlayCount 1 = 0 ∧
    ([(5 : ℤ)]).length = 1 ∧
    (0 : ℕ) ≠ 1 :=
  ⟨rfl, rfl, rfl, by decide⟩

/-- C9 amended: the renderer draws tokens - 1 overlay sub-plots, where
tokens is the third component returned by evaluate; the generated
sequence has length tokens when decoding stopped on the stop token and
tokens + 1 when the step cap was reached, so the number of overlays is
one, respectively two, below the number of generated tokens. -/
theorem renderer_overlay_count_minus_one {α : Type} (model : List ℤ → List ℝ × α)
    (choose : ℕ → List ℝ → ℤ) (start : ℤ) (n : ℕ) (r : List ℤ × α × ℕ)
    (h : evaluate model choose start n = some r) :
    renderedOverlayCount r.2.2 = r.2.2 - 1 ∧
    (r.1.length = r.2.2 ∨ r.1.length = r.2.2 + 1) := by
  refine ⟨rfl, ?_⟩
  cases n with
  | zero => simp [evaluate, evalGo] at h
  | succ n' =>
    by_cases hs : choose 0 (model [start]).1 = stopTokenId
    · simp only [evaluate, evalGo, hs, if_pos] at h
      cases h
      left
      simp
    · simp only [evaluate, evalGo, hs, if_false] at h
      exact evalGo_len model choose n' 1 ([start] ++ [choose 0 (model [start]).1])
        (model [start]).2 r (by omega) (by simp) h

/-- C9 amended witness: in the counterexample run the overlay count is
1 - 1 = 0 and the sequence length 1 equals the third component 1. -/
theorem renderer_overlay_count_minus_one_witness :
    renderedOverlayCount (([(5 : ℤ)], (), 1) : List ℤ × Unit × ℕ).2.2 =
      (([(5 : ℤ)], (), 1) : List ℤ × Unit × ℕ).2.2 - 1 ∧
    ((([(5 : ℤ)], (), 1) : List ℤ × Unit × ℕ).1.length =
        (([(5 : ℤ)], (), 1) : List ℤ × Unit × ℕ).2.2 ∨
      (([(5 : ℤ)], (), 1) : List ℤ × Unit × ℕ).1.length =
        (([(5 : ℤ)], (), 1) : List ℤ × Unit × ℕ).2.2 + 1) :=
  renderer_overlay_count_minus_one (fun _ => ([(0 : ℝ)], ()))
    (fun i _ => if i = 0 then (5 : ℤ) else 2) 0 MAX_LENGTH ([(5 : ℤ)], (), 1) rfl

theorem sortedDesc_eq_self {l : List ℝ} (h : l.Sorted (fun a b => b ≤ a)) :
    sortedDesc l = l :=
  List.eq_of_perm_of_sorted (sortedDesc_perm l) (sortedDesc_sorted l) h

theorem map_eq_self_of_eq {l : List ℝ} {f : ℝ → ℝ} (h : ∀ x ∈ l, f x = x) :
    l.map f = l :=
  (List.map_congr_left h).trans (List.map_id l)

theorem sortedDesc_zero_pair : sortedDesc [(0 : ℝ), 0] = [0, 0] :=
  sortedDesc_eq_self (by simp [List.sorted_cons])

theorem top_k_zero_pair : top_k_logits [(0 : ℝ), 0] 1 = some [0, 0] := by
  simp [top_k_logits, sortedDesc_zero_pair]

/-- C2 counterexample: for the tied logits [0, 0] and k = 1, top_k_logits
returns the logits unchanged, so 2 coordinates are left unmasked, more
than k = 1. -/
theorem top_k_at_most_k_cex :
    top_k_logits [(0 : ℝ), 0] 1 = some [0, 0] ∧
    ([(0 : ℝ), 0].countP (fun x => decide (x ≠ maskValue)) = 2) ∧
    ¬ ([(0 : ℝ), 0].countP (fun x => decide (x ≠ maskValue)) ≤ 1) := by
  refine ⟨top_k_zero_pair, ?_, ?_⟩ <;>
    norm_num [List.countP_cons, List.countP_nil, maskValue]

/-- C2 amended: for 1 ≤ k ≤ n, top_k_logits keeps exactly the logits
not strictly below the k-th largest value, replacing the rest by the
sentinel: hence at least k logits stay unmasked (with equality whenever
the logits are pairwise distinct; ties with the boundary value all
survive, so more than k can stay); for k = 0 the logits are returned
unchanged. -/
theorem top_k_keeps_boundary_ties (l : List ℝ) (k : ℕ) (hk1 : 1 ≤ k)
    (hk2 : k ≤ l.length) :
    ∃ m out, (sortedDesc l)[k - 1]? = some m ∧
      top_k_logits l k = some out ∧
      out = l.map (fun x => if x < m then maskValue else x) ∧
      k ≤ l.countP (fun x => decide (m ≤ x)) ∧
      (l.Nodup → l.countP (fun x => decide (m ≤ x)) = k) ∧
      top_k_logits l 0 = some l := by
  have hlt : k - 1 < (sortedDesc l).length := by
    rw [sortedDesc_length]
    omega
  refine ⟨(sortedDesc l)[k - 1], l.map (fun x => if x < (sortedDesc l)[k - 1] then
    maskValue else x), List.getElem?_eq_getElem hlt, ?_, rfl, ?_, ?_, by
      simp [top_k_logits]⟩
  · have hk0 : ¬ k = 0 := by omega
    simp [top_k_logits, hk0, List.getElem?_eq_getElem hlt]
  · have := countP_ge_of_boundary l (k - 1) hlt
    omega
  · intro hn
    have := countP_eq_of_boundary_nodup l (k - 1) hlt hn
    omega

/-- C2 amended witness: the amended statement instantiated at the tied
logits [0, 0] with k = 1. -/
theorem top_k_keeps_boundary_ties_witness :
    ∃ m out, (sortedDesc [(0 : ℝ), 0])[1 - 1]? = some m ∧
      top_k_logits [(0 : ℝ), 0] 1 = some out ∧
      out = [(0 : ℝ), 0].map (fun x => if x < m then maskValue else x) ∧
      1 ≤ [(0 : ℝ), 0].countP (fun x => decide (m ≤ x)) ∧
      ([(0 : ℝ), 0].Nodup → [(0 : ℝ), 0].countP (fun x => decide (m ≤ x)) = 1) ∧
      top_k_logits [(0 : ℝ), 0] 0 = some [(0 : ℝ), 0] :=
  top_k_keeps_boundary_ties [(0 : ℝ), 0] 1 (by norm_num) (by norm_num)

/-- C10: both filters are pointwise mask-only transforms: the output has
the length of the input, every output coordinate is either the matching
input coordinate unchanged or the sentinel (so surviving logits are
never rescaled or reordered), and because the masking comparison is a
strict less-than, every coordinate equal to the boundary score
survives unchanged. -/
theorem filters_pointwise_mask_only (l o_k o_p : List ℝ) (k : ℕ) (p m_p : ℝ)
    (hk : top_k_logits l k = some o_k) (hp : top_p_logits l p = some o_p)
    (hmp : (sortedDesc l)[nucleusCutoffIndex l p]? = some m_p) :
    (o_k.length = l.length ∧ o_p.length = l.length) ∧
    (∀ i (hik : i < o_k.length) (hil : i < l.length),
      o_k.get ⟨i, hik⟩ = l.get ⟨i, hil⟩ ∨ o_k.get ⟨i, hik⟩ = maskValue) ∧
    (∀ i (hip : i < o_p.length) (hil : i < l.length),
      o_p.get ⟨i, hip⟩ = l.get ⟨i, hil⟩ ∨ o_p.get ⟨i, hip⟩ = maskValue) ∧
    (∀ m_k, (sortedDesc l)[k - 1]? = some m_k → k ≠ 0 →
      ∀ i (hik : i < o_k.length) (hil : i < l.length),
        l.get ⟨i, hil⟩ = m_k → o_k.get ⟨i, hik⟩ = l.get ⟨i, hil⟩) ∧
    (∀ i (hip : i < o_p.length) (hil : i < l.length),
      l.get ⟨i, hil⟩ = m_p → o_p.get ⟨i, hip⟩ = l.get ⟨i, hil⟩) := by
  have hpshape : o_p = l.map (fun x => if x < m_p then maskValue else x) := by
    simp only [top_p_logits, hmp] at hp
    exact (Option.some_inj.1 hp).symm
  subst hpshape
  have hkshape : o_k = l ∨ ∃ mk, (sortedDesc l)[k - 1]? = some mk ∧
      o_k = l.map (fun x => if x < mk then maskValue else x) := by
    by_cases h0 : k = 0
    · left
      simp only [top_k_logits, h0, if_pos] at hk
      exact (Option.some_inj.1 hk).symm
    · right
      cases hm : (sortedDesc l)[k - 1]? with
      | none => simp [top_k_logits, h0, hm] at hk
      | some mk =>
        refine ⟨mk, rfl, ?_⟩
        simp only [top_k_logits, h0, if_neg, hm, if_false] at hk
        exact (Option.some_inj.1 hk).symm
  have hklen : o_k.length = l.length := by
    rcases hkshape with rfl | ⟨mk, _, rfl⟩
    · rfl
    · exact List.length_map l _
  have hplen :
      (l.map (fun x => if x < m_p then maskValue else x)).length = l.length :=
    List.length_map l _
  refine ⟨⟨hklen, hplen⟩, ?_, ?_, ?_, ?_⟩
  · intro i hik hil
    rcases hkshape with rfl | ⟨mk, _, rfl⟩
    · left
      simp [List.get_eq_getElem]
    · simp only [List.get_eq_getElem, List.getElem_map]
      by_cases hlt : l[i] < mk
      · right
        simp [hlt]
      · left
        simp [hlt]
  · intro i hip hil
    simp only [List.get_eq_getElem, List.getElem_map]
    by_cases hlt : l[i] < m_p
    · right
      simp [hlt]
    · left
      simp [hlt]
  · intro mk2 hmk2 h0 i hik hil heq
    rcases hkshape with rfl | ⟨mk, hmk, rfl⟩
    · rfl
    · have hsame : mk = mk2 := Option.some_inj.1 (hmk ▸ hmk2)
      subst hsame
      simp only [List.get_eq_getElem, List.getElem_map] at heq ⊢
      rw [heq]
      simp
  · intro i hip hil heq
    simp only [List.get_eq_getElem, List.getElem_map] at heq ⊢
    rw [heq]
    simp

theorem log_two_pos : (0 : ℝ) < Real.log 2 :=
  Real.log_pos one_lt_two

theorem sortedDesc_log_pair : sortedDesc [Real.log 2, 0] = [Real.log 2, 0] := by
  refine sortedDesc_eq_self ?_
  simp [List.sorted_cons]
  exact log_two_pos.le

theorem cumsum_pair (a b : ℝ) : cumsum [a, b] = [a, a + b] := by
  simp [cumsum, List.range_succ]

theorem softmax_log_pair : softmax [Real.log 2, 0] = [2 / 3, 1 / 3] := by
  unfold softmax
  have h2 : Real.exp (Real.log 2) = 2 := Real.exp_log (by norm_num)
  simp [h2, Real.exp_zero]
  norm_num

theorem cumulativeProbs_log_pair : cumulativeProbs [Real.log 2, 0] = [2 / 3, 1] := by
  rw [cumulativeProbs, sortedDesc_log_pair, softmax_log_pair, cumsum_pair]
  norm_num

theorem nucleusCount_log_pair : nucleusCount [Real.log 2, 0] (4 / 5) = 1 := by
  rw [nucleusCount, cumulativeProbs_log_pair]
  norm_num [List.countP_cons, List.countP_nil]

theorem nucleusCutoffIndex_log_pair : nucleusCutoffIndex [Real.log 2, 0] (4 / 5) = 0 := by
  rw [nucleusCutoffIndex, nucleusCount_log_pair]
  simp

theorem top_p_log_pair :
    top_p_logits [Real.log 2, 0] (4 / 5) = some [Real.log 2, maskValue] := by
  simp only [top_p_logits, nucleusCutoffIndex_log_pair, sortedDesc_log_pair,
    List.getElem?_cons_zero]
  simp [log_two_pos]

/-- C1 counterexample: for the logits [log 2, 0] and p = 4/5 in (0,1) the
cumulative softmax probabilities are [2/3, 1], so the smallest
descending-order prefix whose cumulative probability reaches at least p
consists of both candidates and the claim demands the logits unchanged;
but top_p_logits masks the second logit, retaining only the prefix of
mass 2/3 < 4/5. -/
theorem top_p_smallest_reaching_p_cex :
    ((0 : ℝ) < 4 / 5 ∧ (4 : ℝ) / 5 < 1) ∧
    top_p_logits [Real.log 2, 0] (4 / 5) = some [Real.log 2, maskValue] ∧
    specNucleusCount [Real.log 2, 0] (4 / 5) = 2 ∧
    ([Real.log 2, maskValue] ≠ [Real.log 2, (0 : ℝ)]) ∧
    ((softmax (sortedDesc [Real.log 2, 0])).take 1).sum < 4 / 5 := by
  refine ⟨⟨by norm_num, by norm_num⟩, top_p_log_pair, ?_, ?_, ?_⟩
  · rw [specNucleusCount, cumulativeProbs_log_pair]
    norm_num [List.countP_cons, List.countP_nil]
  · norm_num [maskValue]
  · rw [sortedDesc_log_pair, softmax_log_pair]
    norm_num

/-- C1 amended: for every nonempty logits vector, top_p_logits retains
exactly the logits not strictly below the boundary score, the
descending-sorted logit at index max(c - 1, 0) where c is the number of
cumulative softmax probabilities at most p: so it retains the LARGEST
descending-order prefix whose cumulative softmax probability is at most
p (clamped to at least one candidate even when the top probability
already exceeds p), together with all logits tied with the boundary
score, and not the smallest prefix reaching p; for p = 1 the logits are
returned unchanged. -/
theorem top_p_largest_within_p (l : List ℝ) (p : ℝ) (hl : l ≠ []) :
    ∃ m out, (sortedDesc l)[nucleusCutoffIndex l p]? = some m ∧
      top_p_logits l p = some out ∧
      out = l.map (fun x => if x < m then maskValue else x) ∧
      nucleusCutoffIndex l p + 1 ≤ l.countP (fun x => decide (m ≤ x)) ∧
      (l.Nodup → l.countP (fun x => decide (m ≤ x)) = nucleusCutoffIndex l p + 1) ∧
      (1 ≤ nucleusCount l p →
        ((softmax (sortedDesc l)).take (nucleusCount l p)).sum ≤ p) ∧
      (nucleusCount l p < l.length →
        ¬ ((softmax (sortedDesc l)).take (nucleusCount l p + 1)).sum ≤ p) ∧
      nucleusCutoffIndex l p = nucleusCount l p - 1 ∧
      (p = 1 → out = l) := by
  have hcut : nucleusCutoffIndex l p < (sortedDesc l).length := nucleusCutoffIndex_lt hl p
  have hlen : 1 ≤ l.length := by
    cases l with
    | nil => exact absurd rfl hl
    | cons a t => simp
  refine ⟨(sortedDesc l)[nucleusCutoffIndex l p],
    l.map (fun x => if x < (sortedDesc l)[nucleusCutoffIndex l p] then maskValue else x),
    List.getElem?_eq_getElem hcut, ?_, rfl, ?_, ?_, ?_, ?_, ?_, ?_⟩
  · simp only [top_p_logits, List.getElem?_eq_getElem hcut]
  · exact countP_ge_of_boundary l _ hcut
  · exact fun hn => countP_eq_of_boundary_nodup l _ hcut hn
  · intro hc
    have hi : nucleusCount l p - 1 < l.length := by
      have := nucleusCount_le l p
      omega
    have := (nucleusCount_iff hl p hi).1 (by omega)
    have he : nucleusCount l p - 1 + 1 = nucleusCount l p := by omega
    rwa [he] at this
  · intro hc hle
    have := (nucleusCount_iff hl p hc).2 hle
    omega
  · rw [nucleusCutoffIndex]
    omega
  · intro hp1
    subst hp1
    have hc : nucleusCount l 1 = l.length := nucleusCount_eq_length_of_one_le hl le_rfl
    have hj : nucleusCutoffIndex l 1 = l.length - 1 := by
      rw [nucleusCutoffIndex, hc]
      omega
    refine map_eq_self_of_eq (fun x hx => ?_)
    have hxs : x ∈ sortedDesc l := ((sortedDesc_perm l).mem_iff).2 hx
    rcases List.mem_iff_getElem.1 hxs with ⟨i, hilt, rfl⟩
    have hij : nucleusCutoffIndex l 1 ≤ i ∨ i ≤ nucleusCutoffIndex l 1 := le_total _ _
    have hnotlt : ¬ (sortedDesc l)[i] < (sortedDesc l)[nucleusCutoffIndex l 1] := by
      have hile : i ≤ nucleusCutoffIndex l 1 := by
        rw [hj]
        rw [sortedDesc_length] at hilt
        omega
      exact not_lt.2 (sortedDesc_getElem_le l hile hcut)
    simp [hnotlt]

/-- C1 amended witness: the amended statement instantiated at the logits
[log 2, 0] with p = 4/5. -/
theorem top_p_largest_within_p_witness :
    ∃ m out, (sortedDesc [Real.log 2, 0])[nucleusCutoffIndex [Real.log 2, 0] (4 / 5)]?
        = some m ∧
      top_p_logits [Real.log 2, 0] (4 / 5) = some out ∧
      out = [Real.log 2, 0].map (fun x => if x < m then maskValue else x) ∧
      nucleusCutoffIndex [Real.log 2, 0] (4 / 5) + 1 ≤
        [Real.log 2, 0].countP (fun x => decide (m ≤ x)) ∧
      ([Real.log 2, 0].Nodup → [Real.log 2, 0].countP (fun x => decide (m ≤ x)) =
        nucleusCutoffIndex [Real.log 2, 0] (4 / 5) + 1) ∧
      (1 ≤ nucleusCount [Real.log 2, 0] (4 / 5) →
        ((softmax (sortedDesc [Real.log 2, 0])).take
          (nucleusCount [Real.log 2, 0] (4 / 5))).sum ≤ 4 / 5) ∧
      (nucleusCount [Real.log 2, 0] (4 / 5) < ([Real.log 2, (0 : ℝ)]).length →
        ¬ ((softmax (sortedDesc [Real.log 2, 0])).take
          (nucleusCount [Real.log 2, 0] (4 / 5) + 1)).sum ≤ 4 / 5) ∧
      nucleusCutoffIndex [Real.log 2, 0] (4 / 5) =
        nucleusCount [Real.log 2, 0] (4 / 5) - 1 ∧
      ((4 : ℝ) / 5 = 1 → out = [Real.log 2, 0]) :=
  top_p_largest_within_p [Real.log 2, 0] (4 / 5) (by simp)

theorem softmax_zero_pair : softmax [(0 : ℝ), 0] = [1 / 2, 1 / 2] := by
  unfold softmax
  simp [Real.exp_zero]
  norm_num

theorem nucleusCutoffIndex_zero_pair : nucleusCutoffIndex [(0 : ℝ), 0] (1 / 2) = 0 := by
  rw [nucleusCutoffIndex, nucleusCount, cumulativeProbs, sortedDesc_zero_pair,
    softmax_zero_pair, cumsum_pair]
  norm_num [List.countP_cons, List.countP_nil]

theorem top_p_zero_pair : top_p_logits [(0 : ℝ), 0] (1 / 2) = some [0, 0] := by
  simp only [top_p_logits, nucleusCutoffIndex_zero_pair, sortedDesc_zero_pair,
    List.getElem?_cons_zero]
  simp

theorem sortedDesc_zero_pair_head :
    (sortedDesc [(0 : ℝ), 0])[nucleusCutoffIndex [(0 : ℝ), 0] (1 / 2)]? = some 0 := by
  rw [nucleusCutoffIndex_zero_pair, sortedDesc_zero_pair]
  simp

/-- C10 witness: the pointwise mask-only statement instantiated at the
tied logits [0, 0] with k = 1 and p = 1/2, where both filters return the
logits unchanged. -/
theorem filters_pointwise_mask_only_witness :
    (([(0 : ℝ), 0] : List ℝ).length = [(0 : ℝ), 0].length ∧
      ([(0 : ℝ), 0] : List ℝ).length = [(0 : ℝ), 0].length) ∧
    (∀ i (hik : i < ([(0 : ℝ), 0] : List ℝ).length)
        (hil : i < ([(0 : ℝ), 0] : List ℝ).length),
      ([(0 : ℝ), 0] : List ℝ).get ⟨i, hik⟩ = ([(0 : ℝ), 0] : List ℝ).get ⟨i, hil⟩ ∨
        ([(0 : ℝ), 0] : List ℝ).get ⟨i, hik⟩ = maskValue) ∧
    (∀ i (hip : i < ([(0 : ℝ), 0] : List ℝ).length)
        (hil : i < ([(0 : ℝ), 0] : List ℝ).length),
      ([(0 : ℝ), 0] : List ℝ).get ⟨i, hip⟩ = ([(0 : ℝ), 0] : List ℝ).get ⟨i, hil⟩ ∨
        ([(0 : ℝ), 0] : List ℝ).get ⟨i, hip⟩ = maskValue) ∧
    (∀ m_k, (sortedDesc [(0 : ℝ), 0])[1 - 1]? = some m_k → (1 : ℕ) ≠ 0 →
      ∀ i (hik : i < ([(0 : ℝ), 0] : List ℝ).length)
          (hil : i < ([(0 : ℝ), 0] : List ℝ).length),
        ([(0 : ℝ), 0] : List ℝ).get ⟨i, hil⟩ = m_k →
          ([(0 : ℝ), 0] : List ℝ).get ⟨i, hik⟩ = ([(0 : ℝ), 0] : List ℝ).get ⟨i, hil⟩) ∧
    (∀ i (hip : i < ([(0 : ℝ), 0] : List ℝ).length)
        (hil : i < ([(0 : ℝ), 0] : List ℝ).length),
      ([(0 : ℝ), 0] : List ℝ).get ⟨i, hil⟩ = 0 →
        ([(0 : ℝ), 0] : List ℝ).get ⟨i, hip⟩ = ([(0 : ℝ), 0] : List ℝ).get ⟨i, hil⟩) :=
  filters_pointwise_mask_only [(0 : ℝ), 0] [(0 : ℝ), 0] [(0 : ℝ), 0] 1 (1 / 2) 0
    top_k_zero_pair top_p_zero_pair sortedDesc_zero_pair_head

end Ratchet
